import Mathlib

/-!
Verification of the `bevy_logic` simulation core against its specification.

The development shallowly embeds the Rust sources:
  * `src/logic/signal.rs` — the `Signal` value domain and its algebra;
  * `src/components.rs` / `src/logic/gates.rs` — the built-in gate evaluators;
  * `src/logic/mod.rs` and the two tick systems in `src/logic/gates.rs` — the
    `Desync` stabilization counters;
  * `src/logic/schedule.rs` — the fixed-step tick scheduler;
  * `src/resources.rs` — the `LogicGraph` compiler (Kosaraju SCC ordering);
  * `examples/advanced_gates/main.rs` — the stateful `Selector` and `Counter` gates.

`f32` values are modelled by classification (`F32` below): NaN, signed
infinities, and finite values carried as exact rationals.  The sign of a
floating-point zero is not tracked (both zeros are the falsy, non-normal
value `F32.fin 0`), and finite arithmetic is exact rational arithmetic;
no theorem below depends on rounding behaviour.
-/

/-- Model of an IEEE-754 binary32 value, by classification.  Finite values
(zeros, subnormals and normals) are carried as exact rationals; the zero
sign bit is not modelled. -/
inductive F32 where
  | nan : F32
  | inf (neg : Bool) : F32
  | fin (q : ℚ) : F32
deriving DecidableEq, Repr

namespace F32

/-- The smallest positive normal binary32 value, `2^(-126)`. -/
def minNormal : ℚ := 1 / 2 ^ 126

/-- Model of Rust `f32::is_normal`: neither zero, subnormal, infinite nor NaN. -/
def is_normal : F32 → Bool
  | nan => false
  | inf _ => false
  | fin q => decide (q ≠ 0 ∧ minNormal ≤ |q|)

/-- Model of Rust `f32::is_sign_negative` (zero-sign collapsed to `+0`). -/
def is_sign_negative : F32 → Bool
  | nan => false
  | inf neg => neg
  | fin q => decide (q < 0)

/-- Model of Rust `f32::is_sign_positive` (zero-sign collapsed to `+0`). -/
def is_sign_positive : F32 → Bool
  | nan => true
  | inf neg => !neg
  | fin q => decide (0 ≤ q)

/-- Model of Rust `f32::abs`. -/
def abs : F32 → F32
  | nan => nan
  | inf _ => inf false
  | fin q => fin |q|

/-- IEEE comparison `a <= b`: any comparison involving NaN is false. -/
def le (a b : F32) : Bool :=
  match a, b with
  | nan, _ => false
  | _, nan => false
  | inf s, inf t => s && !t || (s == t)
  | inf s, fin _ => s
  | fin _, inf t => !t
  | fin p, fin q => decide (p ≤ q)

/-- IEEE comparison `a >= b`. -/
def ge (a b : F32) : Bool := le b a

/-- IEEE binary32 addition on the classification model (finite sums are
exact; rounding and overflow to infinity are not modelled — no theorem
depends on the value of a finite sum). -/
def add (a b : F32) : F32 :=
  match a, b with
  | nan, _ => nan
  | _, nan => nan
  | inf s, inf t => if s = t then inf s else nan
  | inf s, fin _ => inf s
  | fin _, inf t => inf t
  | fin p, fin q => fin (p + q)

/-- IEEE binary32 subtraction on the classification model. -/
def sub (a b : F32) : F32 :=
  match a, b with
  | nan, _ => nan
  | _, nan => nan
  | inf s, inf t => if s = t then nan else inf s
  | inf s, fin _ => inf s
  | fin _, inf t => inf !t
  | fin p, fin q => fin (p - q)

/-- IEEE binary32 negation on the classification model. -/
def neg : F32 → F32
  | nan => nan
  | inf s => inf !s
  | fin q => fin (-q)

/-- IEEE binary32 division on the classification model (finite quotients
are exact; `x/0` follows the IEEE special cases with the zero sign
collapsed). -/
def div (a b : F32) : F32 :=
  match a, b with
  | nan, _ => nan
  | _, nan => nan
  | inf _, inf _ => nan
  | inf s, fin q => inf (s ≠ decide (q < 0))
  | fin _, inf _ => fin 0
  | fin p, fin q =>
    if q = 0 then (if p = 0 then nan else inf (decide (p < 0)))
    else fin (p / q)

end F32

/-- `Signal` from `src/logic/signal.rs`: state storage for logic simulation. -/
inductive Signal where
  | Analog : F32 → Signal
  | Digital : Bool → Signal
  | Undefined : Signal
deriving DecidableEq, Repr

namespace Signal

/-- `Signal::OFF`. -/
def OFF : Signal := Digital false
/-- `Signal::ON`. -/
def ON : Signal := Digital true
/-- `Signal::NEG`. -/
def NEG : Signal := Analog (F32.fin (-1))

/-- `Signal::default()` (`impl Default for Signal`). -/
def default : Signal := Undefined

/-- `Signal::is_truthy`: `Digital(true)` or `Analog` of a normal float. -/
def is_truthy : Signal → Bool
  | Digital true => true
  | Analog value => value.is_normal
  | _ => false

/-- `Signal::is_falsy`: `Digital(true)` is not falsy, `Analog` is falsy iff
not normal, everything else is falsy. -/
def is_falsy : Signal → Bool
  | Digital true => false
  | Analog value => !value.is_normal
  | _ => true

/-- `Signal::turn_off` (functional model of the in-place setter). -/
def turn_off (_ : Signal) : Signal := OFF

/-- `Signal::turn_on` (functional model of the in-place setter). -/
def turn_on (_ : Signal) : Signal := ON

/-- `Signal::replace`: assign the new signal only if it differs (used to
suppress redundant change notifications; the resulting value is the same
either way).  Rust's `PartialEq` on `f32` payloads is modelled by the
decidable equality of `F32`. -/
def replace (old new : Signal) : Signal :=
  if new ≠ old then new else old

/-- `Signal::is_sign_negative`. -/
def is_sign_negative : Signal → Bool
  | Analog value => value.is_sign_negative
  | _ => false

/-- `Signal::is_sign_positive`. -/
def is_sign_positive : Signal → Bool
  | Analog value => value.is_sign_positive
  | _ => false

/-- `impl Add for Signal` from `src/logic/signal.rs` (match arms in source
order; Lean `match` shares Rust's first-match semantics). -/
def add (a b : Signal) : Signal :=
  match a, b with
  | Undefined, _ => Undefined
  | _, Undefined => Undefined
  | Analog lhs, Analog rhs => Analog (lhs.add rhs)
  | Analog a, Digital d => Analog (a.add (F32.fin (if d then 1 else 0)))
  | Digital d, Analog a => Analog (a.add (F32.fin (if d then 1 else 0)))
  | Digital lhs, Digital rhs => Digital (lhs || rhs)

/-- `impl Sub for Signal` from `src/logic/signal.rs`. -/
def sub (a b : Signal) : Signal :=
  match a, b with
  | Undefined, _ => Undefined
  | _, Undefined => Undefined
  | Analog lhs, Analog rhs => Analog (lhs.sub rhs)
  | Analog a, Digital true => Analog (a.sub (F32.fin 1))
  | Analog a, Digital false => Analog a
  | Digital true, Analog a => Analog ((F32.fin 1).sub a)
  | Digital false, Analog a => Analog a.neg
  | Digital true, Digital false => Digital true
  | _, _ => Digital false

/-- `impl Not for Signal`. -/
def not : Signal → Signal
  | Analog value => Analog value.neg
  | Digital value => Digital (!value)
  | Undefined => Undefined

/-- `Signal::max_abs`: select the operand with the greater absolute value
(match arms in source order). -/
def max_abs (a b : Signal) : Signal :=
  match a, b with
  | Analog x, Analog y => if (x.abs.ge y.abs) then Analog x else Analog y
  | Analog x, Digital false => if x.is_normal then Analog x else OFF
  | Digital false, Analog x => if x.is_normal then Analog x else OFF
  | Analog x, Digital true => if x.abs.ge (F32.fin 1) then Analog x else ON
  | Digital true, Analog x => if x.abs.ge (F32.fin 1) then Analog x else ON
  | Digital false, Digital false => OFF
  | Digital true, Digital true => ON
  | Digital true, Digital false => ON
  | Digital false, Digital true => ON
  | Undefined, v => v
  | v, Undefined => v

instance : Add Signal := ⟨Signal.add⟩
instance : Sub Signal := ⟨Signal.sub⟩

end Signal

/-!
## Built-in gate evaluators

From `src/components.rs` (the library's `LogicGate` impls write into a
mutable `&mut [Signal]` of output slots; modelled as a function returning
the new output list).  `src/logic/gates.rs` contains textually identical
evaluators writing through the `Source` newtype wrapper.

The evaluators call `Signal::is_true`, which is absent from the sources in
`src/`; per the spec's gate truth tables ("output = true iff any/all inputs
truthy") it is modelled as truthiness.
-/

namespace Signal

/-- Modelled from the spec: `Signal::is_true` is called by every built-in
gate evaluator but its definition is missing from `src/`; the spec's truth
tables ("output = true iff all/any inputs truthy") identify it with
`is_truthy`. -/
def is_true (s : Signal) : Bool := s.is_truthy

end Signal

/-- `AndGate::evaluate` (`src/components.rs`): every output slot receives
`Digital(all inputs truthy)`. -/
def AndGate.evaluate (inputs outputs : List Signal) : List Signal :=
  let signal := inputs.all Signal.is_true
  outputs.map fun _ => Signal.Digital signal

/-- `NotGate::evaluate` (`src/components.rs`): every output slot receives
`Digital(not (all inputs truthy))`. -/
def NotGate.evaluate (inputs outputs : List Signal) : List Signal :=
  let signal := !inputs.all Signal.is_true
  outputs.map fun _ => Signal.Digital signal

/-- `OrGate` flags (`src/components.rs`). -/
structure OrGate where
  invert_output : Bool
  is_adder : Bool
deriving DecidableEq, Repr

/-- `OrGate::evaluate` (`src/components.rs`): fold the inputs with `+` when
`is_adder`, otherwise OR their truthiness; optionally negate; write the one
resulting signal to every output slot. -/
def OrGate.evaluate (g : OrGate) (inputs outputs : List Signal) : List Signal :=
  let signal :=
    if g.is_adder then inputs.foldl (fun acc input => acc + input) Signal.OFF
    else Signal.Digital (inputs.any Signal.is_true)
  let signal := if g.invert_output then signal.not else signal
  outputs.map fun _ => signal

/-- `Battery::evaluate` (`src/components.rs`): ignore inputs, write the
configured signal to every output slot. -/
def Battery.evaluate (battery : Signal) (_inputs outputs : List Signal) : List Signal :=
  outputs.map fun _ => battery

/-- `LogicNode::evaluate` (`src/logic/gates.rs`): a passthrough node.  The
input/output length assertion is compiled only under `cfg(debug_assertions)`,
modelled by the `debugAssertions` flag; `none` models the panic.  The
`zip` copies `inputs[i]` into `outputs[i]` for `i < min(len in, len out)`
and leaves the remaining output slots untouched. -/
def LogicNode.evaluate (debugAssertions : Bool) (inputs outputs : List Signal) :
    Option (List Signal) :=
  if debugAssertions ∧ inputs.length ≠ outputs.length then none
  else
    let k := min outputs.length inputs.length
    some (inputs.take k ++ outputs.drop k)

/-- Modelled from the spec: the spec's required built-in XOR gate
("output = true iff the count of truthy inputs is odd") has no
implementation anywhere under `src/`; this definition follows the spec's
words, writing the one parity signal to every output slot like the other
built-in gates. -/
def XorGate.evaluate (inputs outputs : List Signal) : List Signal :=
  let signal := (inputs.countP Signal.is_true) % 2 = 1
  outputs.map fun _ => Signal.Digital signal

/-!
## Desync stabilization counters

`Desync(pub u32)` from `src/logic/mod.rs`, with the skip/decrement logic of
the two tick systems `propagate_logic_signals` and `evaluate_logic_gates`
in `src/logic/gates.rs`.  The `u32` counter is modelled as `ℕ`.
-/

/-- `Desync::increment`: raise the counter by the fixed step of `2`. -/
def Desync.increment (n : ℕ) : ℕ := n + 2

/-- The desync gate shared by both tick systems
(`src/logic/gates.rs:72-78` and `92-98`): an owner whose counter is present
and nonzero is skipped this tick and its counter decremented by one;
otherwise the owner participates.  Returns `(skipped, new counter)`. -/
def Desync.tickGate : Option ℕ → Bool × Option ℕ
  | some n => if n > 0 then (true, some (n - 1)) else (false, some n)
  | none => (false, none)

/-- A wire entity as seen by `propagate_logic_signals`: a source port id, a
sink port id, the cached signal, and an optional desync counter. -/
structure WireEnt where
  source : ℕ
  sink : ℕ
  signal : Signal
  desync : Option ℕ
deriving DecidableEq, Repr

/-- One wire's step inside `propagate_logic_signals`
(`src/logic/gates.rs:72-84`): a desync-gated copy of the source port's
signal into the wire cache and the sink port.  Returns the updated wire and
sink-signal store. -/
def propagateWire (sources : ℕ → Signal) (sinks : ℕ → Signal) (w : WireEnt) :
    WireEnt × (ℕ → Signal) :=
  match Desync.tickGate w.desync with
  | (true, d) => ({ w with desync := d }, sinks)
  | (false, d) =>
    let s := sources w.source
    ({ w with signal := s, desync := d },
      fun i => if i = w.sink then s else sinks i)

/-- A gate entity as seen by `evaluate_logic_gates`: its evaluator (the
`LogicGate` trait object), its current input and output port signals, and
an optional desync counter. -/
structure GateEnt where
  eval : List Signal → List Signal → List Signal
  inputs : List Signal
  outputs : List Signal
  desync : Option ℕ

/-- One gate's step inside `evaluate_logic_gates`
(`src/logic/gates.rs:92-129`): a desync-gated evaluation writing the new
output signals. -/
def evaluateGate (g : GateEnt) : GateEnt :=
  match Desync.tickGate g.desync with
  | (true, d) => { g with desync := d }
  | (false, d) => { g with outputs := g.eval g.inputs g.outputs, desync := d }

/-!
## Fixed-step tick scheduler

`Time<LogicStep>` from `src/logic/schedule.rs`.  `Duration` is modelled as
nanoseconds in `ℕ` (Rust `Duration` is a non-negative integer nanosecond
count); `checked_sub` returns `Some` exactly when no underflow occurs.
-/

/-- The `LogicStep` fixed-timestep clock context plus the generic clock's
elapsed time advanced by `advance_by`. -/
structure LogicStepClock where
  timestep : ℕ
  overstep : ℕ
  elapsed : ℕ
deriving DecidableEq, Repr

/-- `FixedLogicStepExt::accumulate`: add the elapsed wall-clock delta to the
overstep accumulator. -/
def LogicStepClock.accumulate (c : LogicStepClock) (delta : ℕ) : LogicStepClock :=
  { c with overstep := c.overstep + delta }

/-- `FixedLogicStepExt::expend` (`src/logic/schedule.rs:209-220`): if a full
timestep has accumulated (`overstep.checked_sub(timestep)` succeeds), spend
it — reduce the accumulator, advance the clock — and report `true`;
otherwise report `false` and leave the clock unchanged. -/
def LogicStepClock.expend (c : LogicStepClock) : Bool × LogicStepClock :=
  if c.timestep ≤ c.overstep then
    (true, { c with overstep := c.overstep - c.timestep,
                    elapsed := c.elapsed + c.timestep })
  else
    (false, c)

/-- The `while expend()` loop of `run_fixed_main_schedule`
(`src/logic/schedule.rs:30-36`): run the `LogicUpdate` schedule once per
expended timestep, counting the evaluation passes.  The positivity guard on
`timestep` reflects the source invariant (`set_timestep` asserts a nonzero
timestep) and makes the loop terminating. -/
def LogicStepClock.expendLoop (c : LogicStepClock) : LogicStepClock × ℕ :=
  if h : 0 < c.timestep ∧ c.timestep ≤ c.overstep then
    let next := (LogicStepClock.expend c).2
    let rest := LogicStepClock.expendLoop next
    (rest.1, rest.2 + 1)
  else
    (c, 0)
termination_by c.overstep
decreasing_by
  simp only [LogicStepClock.expend, if_pos h.2]
  exact Nat.sub_lt (Nat.lt_of_lt_of_le h.1 h.2) h.1

/-- `run_fixed_main_schedule` (`src/logic/schedule.rs:25-38`): accumulate
the wall-clock delta, then expend whole timesteps, running one evaluation
pass for each.  Returns the final clock and the number of passes. -/
def runFixedMainSchedule (c : LogicStepClock) (delta : ℕ) : LogicStepClock × ℕ :=
  (c.accumulate delta).expendLoop

/-!
## Stateful example gates

`Selector` and `Counter` from `examples/advanced_gates/main.rs`.  Their
`evaluate` takes `&mut self`, so the embedding returns the updated gate
state next to the new outputs; `none` models a panic.
-/

/-- `Itertools::find_position`: index and element of the first item
satisfying the predicate. -/
def findPosition {α : Type} (p : α → Bool) : List α → Option (ℕ × α)
  | [] => none
  | a :: rest =>
    if p a then some (0, a)
    else (findPosition p rest).map fun ix => (ix.1 + 1, ix.2)

/-- The `Counter` gate state (`examples/advanced_gates/main.rs:108-131`).
`current`/`target` are `i8` in the source; the guarded increment/decrement
and reset keep them within `i8` range, so `ℤ` is a faithful model.  The
fixed-size `[bool; 2]` stale array is a pair. -/
structure Counter where
  current : ℤ
  target : ℤ
  signal_strength : Bool
  stale_inputs : Bool × Bool
deriving DecidableEq, Repr

namespace Counter

/-- `Counter::new(current, target, signal_strength)` (stale flags default
to false). -/
def new (current target : ℤ) (signal_strength : Bool) : Counter :=
  ⟨current, target, signal_strength, (false, false)⟩

/-- `Counter::increment`: raise `current` if below `target`. -/
def increment (c : Counter) : Counter :=
  if c.current < c.target then { c with current := c.current + 1 } else c

/-- `Counter::decrement`: lower `current` if above `0`. -/
def decrement (c : Counter) : Counter :=
  if c.current > 0 then { c with current := c.current - 1 } else c

/-- `Counter::reset`. -/
def reset (c : Counter) : Counter := { c with current := 0 }

/-- `Counter::signal_strength()` — named `strength_signal` here because the
Lean structure already owns the field name: `current / target` as an analog
signal. -/
def strength_signal (c : Counter) : Signal :=
  Signal.Analog ((F32.fin c.current).div (F32.fin c.target))

/-- `Counter::signal_on_off()`: digital completion signal. -/
def signal_on_off (c : Counter) : Signal :=
  Signal.Digital (c.current == c.target)

/-- `self.stale_inputs[index]`, `none` modelling the index-out-of-bounds
panic for an input index beyond the fixed array. -/
def stale_get (c : Counter) : ℕ → Option Bool
  | 0 => some c.stale_inputs.1
  | 1 => some c.stale_inputs.2
  | _ => none

/-- `self.stale_inputs[index] = true` (only reached for `index < 2`). -/
def stale_set (c : Counter) (index : ℕ) : Counter :=
  match index with
  | 0 => { c with stale_inputs := (true, c.stale_inputs.2) }
  | _ => { c with stale_inputs := (c.stale_inputs.1, true) }

/-- The trailing output write of `Counter::evaluate`
(`main.rs:193-199`): `outputs.get_mut(0).expect(..)` then `replace` with
either the strength or the on/off signal. -/
def write_output (c : Counter) (outputs : List Signal) :
    Option (Counter × List Signal) :=
  match outputs with
  | [] => none
  | o :: rest =>
    let s := if c.signal_strength then c.strength_signal else c.signal_on_off
    some (c, Signal.replace o s :: rest)

/-- `Counter::evaluate` (`examples/advanced_gates/main.rs:167-201`): react
to the first truthy input unless its stale flag is set (early return,
outputs untouched); clear all stale flags when no input is truthy; index 0
resets, index 1 counts (down for a negative analog pulse, up otherwise).
The source's `_ => panic!("Counter has too many inputs!")` match arm is
unreachable: an index beyond 1 already panics at the
`stale_inputs[index]` array access (`none` above). -/
def evaluate (c : Counter) (inputs outputs : List Signal) :
    Option (Counter × List Signal) :=
  match findPosition Signal.is_truthy inputs with
  | some (index, signal) =>
    match c.stale_get index with
    | none => none
    | some true => some (c, outputs)
    | some false =>
      let c1 := c.stale_set index
      let c2 :=
        match index with
        | 0 => c1.reset
        | _ => if signal.is_sign_negative then c1.decrement else c1.increment
      c2.write_output outputs
  | none =>
    ({ c with stale_inputs := (false, false) } : Counter).write_output outputs

end Counter

/-- The `Selector` gate state (`examples/advanced_gates/main.rs:36-39`):
only the cycle input (index 0) carries a stale flag. -/
structure Selector where
  stale_cycle_input : Bool
deriving DecidableEq, Repr

namespace Selector

/-- `Selector::evaluate` (`examples/advanced_gates/main.rs:41-98`).  The
fan-count assertion is compiled only under `cfg(debug_assertions)`
(`debugAssertions` flag).  `inputs.iter().rev().find_position(is_truthy)`
selects the highest truthy input index (priority); index 0 is the debounced
cycle input which turns the first truthy output off and activates the
next one (wrapping to output 0); a higher index routes its signal to
output `index - 1` after clearing all outputs (`.unwrap()` panics — `none`
— if that output is missing); with no truthy input the stale flag clears
and, if every output is falsy, output 0 switches on. -/
def evaluate (debugAssertions : Bool) (sel : Selector)
    (inputs outputs : List Signal) : Option (Selector × List Signal) :=
  if debugAssertions ∧ inputs.length ≠ outputs.length + 1 then none
  else
    match findPosition Signal.is_truthy inputs.reverse with
    | some (revIndex, signal) =>
      let index := inputs.length - 1 - revIndex
      if index = 0 then
        if sel.stale_cycle_input then some (sel, outputs)
        else
          let sel1 : Selector := ⟨true⟩
          let pre := outputs.takeWhile Signal.is_falsy
          match outputs.dropWhile Signal.is_falsy with
          | [] =>
            -- no truthy output: `iter.next()` is `None` twice; write to
            -- `outputs.first_mut()` (panic when there are no outputs)
            match outputs with
            | [] => none
            | o :: rest => some (sel1, Signal.replace o signal :: rest)
          | active :: post =>
            match post with
            | nxt :: rest =>
              some (sel1, pre ++ active.turn_off :: Signal.replace nxt signal :: rest)
            | [] =>
              -- the active output was the last: turn it off, then write the
              -- cycle signal into the (necessarily existing) first output
              match pre with
              | [] => some (sel1, [Signal.replace active.turn_off signal])
              | p0 :: ps =>
                some (sel1, Signal.replace p0 signal :: ps ++ [active.turn_off])
      else
        if index - 1 < outputs.length then
          some (sel,
            (outputs.map fun _ => Signal.OFF).set (index - 1)
              (Signal.replace Signal.OFF signal))
        else none
    | none =>
      let sel1 : Selector := ⟨false⟩
      if outputs.all Signal.is_falsy then
        match outputs with
        | [] => some (sel1, [])
        | o :: rest => some (sel1, o.turn_on :: rest)
      else some (sel1, outputs)

end Selector

/-!
## The LogicGraph compiler

`LogicGraph` (`src/resources.rs`) stores a `petgraph::DiGraphMap<Entity,
Entity>` and `compile()` sets the evaluation order to
`kosaraju_scc(&self.graph).into_iter().flatten().rev().collect()`.

The graph is modelled by its node list (node identifiers in insertion /
iteration order) and edge list; entities are `ℕ`.  `kosaraju_scc` is an
external dependency whose source is not part of this repository; it is
modelled after its documented algorithm (which the spec paraphrases in
§4.3): a first depth-first pass over the *reversed* graph records a
postorder finish list, then a second pass over the graph itself, taking
candidate roots in decreasing finish order, collects one strongly connected
component per unvisited root.  petgraph's iterative DFS explores neighbours
in stack order; the model explores them in adjacency-list order, a
difference that cannot affect the order-independent properties proved
below.
-/

/-- The directed multigraph underlying `LogicGraph`: gate nodes and
(from-gate, to-gate) wire edges.  Edge weights (wire entities) do not
influence `compile` and are omitted. -/
structure DiGraph where
  nodes : List ℕ
  edges : List (ℕ × ℕ)
deriving DecidableEq, Repr

namespace DiGraph

/-- Outgoing neighbours of `u` in adjacency-list order. -/
def succ (g : DiGraph) (u : ℕ) : List ℕ :=
  (g.edges.filter fun e => decide (e.1 = u)).map Prod.snd

/-- Incoming neighbours of `u` (the reversed graph's outgoing neighbours). -/
def pred (g : DiGraph) (u : ℕ) : List ℕ :=
  (g.edges.filter fun e => decide (e.2 = u)).map Prod.fst

/-- `DiGraphMap` structural invariants: the node set has no duplicates and
every edge endpoint is a node (`add_edge` inserts missing endpoints). -/
def WF (g : DiGraph) : Prop :=
  g.nodes.Nodup ∧ ∀ e ∈ g.edges, e.1 ∈ g.nodes ∧ e.2 ∈ g.nodes

/-- One wire-edge hop. -/
def Step (g : DiGraph) (x y : ℕ) : Prop := (x, y) ∈ g.edges

/-- Reachability along wire edges (reflexive-transitive closure). -/
def Reaches (g : DiGraph) : ℕ → ℕ → Prop := Relation.ReflTransGen g.Step

/-- The graph is acyclic: no wire edge closes a directed cycle. -/
def Acyclic (g : DiGraph) : Prop :=
  ∀ x y, (x, y) ∈ g.edges → ¬ g.Reaches y x

end DiGraph

/-- Depth-first search state: visited nodes, discovery (pre) order and
finish (post) order. -/
structure DfsSt where
  visited : List ℕ
  pre : List ℕ
  post : List ℕ
deriving DecidableEq, Repr

/-- The number of graph nodes not yet visited (termination measure). -/
def unvisitedCount (nodes : List ℕ) (visited : List ℕ) : ℕ :=
  (nodes.filter fun v => decide (v ∉ visited)).length


theorem length_filter_imp {α : Type} (p q : α → Bool)
    (h : ∀ a, p a = true → q a = true) :
    ∀ l : List α, (l.filter p).length ≤ (l.filter q).length := by
  intro l
  induction l with
  | nil => simp
  | cons a t ih =>
    simp only [List.filter_cons]
    by_cases hp : p a = true
    · rw [if_pos hp, if_pos (h a hp)]
      simpa using ih
    · rw [if_neg hp]
      by_cases hq : q a = true
      · rw [if_pos hq]
        exact Nat.le_succ_of_le ih
      · rw [if_neg hq]
        exact ih

theorem unvisitedCount_mono (u : ℕ) (visited : List ℕ) (l : List ℕ) :
    (l.filter fun v => decide (v ∉ u :: visited)).length ≤
      (l.filter fun v => decide (v ∉ visited)).length := by
  apply length_filter_imp
  intro a ha
  simp only [decide_eq_true_eq, List.mem_cons] at *
  tauto

theorem unvisitedCount_cons_lt {nodes visited : List ℕ} {u : ℕ}
    (hu : u ∈ nodes) (hv : u ∉ visited) :
    unvisitedCount nodes (u :: visited) < unvisitedCount nodes visited := by
  induction nodes with
  | nil => cases hu
  | cons a rest ih =>
    simp only [unvisitedCount, List.filter_cons] at *
    by_cases hav : a ∈ visited
    · have h1 : decide (a ∉ u :: visited) = false := by
        simp [List.mem_cons, hav]
      have h2 : decide (a ∉ visited) = false := by simp [hav]
      rw [h1, h2, if_neg (by simp), if_neg (by simp)]
      rcases List.mem_cons.mp hu with rfl | ha
      · exact absurd hav hv
      · exact ih ha
    · by_cases hau : a = u
      · subst hau
        have h1 : decide (a ∉ a :: visited) = false := by simp
        have h2 : decide (a ∉ visited) = true := by simp [hav]
        rw [h1, h2, if_neg (by simp), if_pos rfl]
        simp only [List.length_cons]
        exact Nat.lt_succ_of_le (unvisitedCount_mono a visited rest)
      · have h1 : decide (a ∉ u :: visited) = true := by
          simp [List.mem_cons, hau, hav]
        have h2 : decide (a ∉ visited) = true := by simp [hav]
        rw [h1, h2, if_pos rfl, if_pos rfl]
        simp only [List.length_cons]
        rcases List.mem_cons.mp hu with rfl | ha
        · exact absurd rfl hau
        · exact Nat.succ_lt_succ (ih ha)

theorem unvisitedCount_le_of_subset {v1 v2 : List ℕ} (nodes : List ℕ)
    (h : ∀ v, v ∈ v1 → v ∈ v2) :
    unvisitedCount nodes v2 ≤ unvisitedCount nodes v1 := by
  apply length_filter_imp
  intro a ha
  simp only [decide_eq_true_eq] at *
  exact fun hm => ha (h a hm)

/-- Recursive depth-first search over `adj`, modelling petgraph's `Dfs` /
`DfsPostOrder` visitors: process a worklist of roots, skipping nodes
already discovered (or outside the graph — unreachable for well-formed
graphs), recording each fresh node in discovery order (`pre`) at entry and
in finish order (`post`) after exploring its neighbours.  The result
carries the proof that the discovered set only grows, which also drives
termination. -/
def dfsAux (adj : ℕ → List ℕ) (nodes : List ℕ) :
    (us : List ℕ) → (s : DfsSt) →
    { t : DfsSt // ∀ v, v ∈ s.visited → v ∈ t.visited }
  | [], s => ⟨s, fun _ h => h⟩
  | u :: rest, s =>
    if h : u ∈ s.visited ∨ u ∉ nodes then
      dfsAux adj nodes rest s
    else
      let s1 : DfsSt := ⟨u :: s.visited, s.pre ++ [u], s.post⟩
      let r2 := dfsAux adj nodes (adj u) s1
      let s3 : DfsSt := ⟨r2.val.visited, r2.val.pre, r2.val.post ++ [u]⟩
      let r4 := dfsAux adj nodes rest s3
      ⟨r4.val, fun v hv =>
        r4.property v (r2.property v (List.mem_cons_of_mem _ hv))⟩
termination_by us s => (unvisitedCount nodes s.visited, us.length)
decreasing_by
  · exact Prod.Lex.right _ (Nat.lt_succ_self _)
  · apply Prod.Lex.left
    push_neg at h
    exact unvisitedCount_cons_lt h.2 h.1
  · rcases Nat.lt_or_ge (unvisitedCount nodes r2.val.visited)
      (unvisitedCount nodes s.visited) with hlt | hge
    · exact Prod.Lex.left _ _ hlt
    · have hle : unvisitedCount nodes r2.val.visited ≤
          unvisitedCount nodes (u :: s.visited) :=
        unvisitedCount_le_of_subset nodes
          (fun v hv => r2.property v hv)
      push_neg at h
      have : unvisitedCount nodes (u :: s.visited) <
          unvisitedCount nodes s.visited := unvisitedCount_cons_lt h.2 h.1
      omega

/-- Big-step presentation of `dfsAux`: `DfsRel adj nodes us s t` states
that running the search on worklist `us` from state `s` ends in state `t`.
Lemmas about the search are proved by induction on this relation. -/
inductive DfsRel (adj : ℕ → List ℕ) (nodes : List ℕ) :
    List ℕ → DfsSt → DfsSt → Prop where
  | nil (s : DfsSt) : DfsRel adj nodes [] s s
  | skip {u : ℕ} {rest : List ℕ} {s t : DfsSt}
      (h : u ∈ s.visited ∨ u ∉ nodes)
      (hrec : DfsRel adj nodes rest s t) : DfsRel adj nodes (u :: rest) s t
  | go {u : ℕ} {rest : List ℕ} {s s2 t : DfsSt}
      (hu : u ∉ s.visited) (hn : u ∈ nodes)
      (hsub : DfsRel adj nodes (adj u) ⟨u :: s.visited, s.pre ++ [u], s.post⟩ s2)
      (hrest : DfsRel adj nodes rest ⟨s2.visited, s2.pre, s2.post ++ [u]⟩ t) :
      DfsRel adj nodes (u :: rest) s t

theorem dfsAux_sound (adj : ℕ → List ℕ) (nodes : List ℕ) :
    ∀ us s, DfsRel adj nodes us s (dfsAux adj nodes us s).val := by
  intro us s
  induction us, s using dfsAux.induct adj nodes with
  | case1 s => rw [dfsAux]; exact DfsRel.nil s
  | case2 u rest s h ih =>
    rw [dfsAux, dif_pos h]
    exact DfsRel.skip h ih
  | case3 u rest s h s1 r2 s3 ih1 ih1' ih2 ih2' =>
    rw [dfsAux, dif_neg h]
    push_neg at h
    exact DfsRel.go h.1 h.2 ih1' ih2'

/-- First phase of `kosaraju_scc`: a depth-first pass over the reversed
graph (`Reversed(g)`) started from every node in iteration order,
recording the postorder finish list. -/
def finishOrderSt (g : DiGraph) : DfsSt :=
  (dfsAux g.pred g.nodes g.nodes ⟨[], [], []⟩).val

/-- The finish order computed by the first phase. -/
def finish_order (g : DiGraph) : List ℕ :=
  (finishOrderSt g).post

/-- Second phase of `kosaraju_scc`: process candidate roots in decreasing
finish time; each unvisited root starts a depth-first search over the graph
itself whose freshly discovered nodes form one strongly connected
component. -/
def sccLoop (g : DiGraph) : List ℕ → List ℕ → List (List ℕ) → List (List ℕ)
  | [], _, sccs => sccs
  | i :: rest, visited, sccs =>
    if i ∈ visited then sccLoop g rest visited sccs
    else
      let t := (dfsAux g.succ g.nodes [i] ⟨visited, [], []⟩).val
      sccLoop g rest t.visited (sccs ++ [t.pre])

/-- `petgraph::algo::kosaraju_scc`, modelled as described in the module
comment: the components are produced in postorder (reverse topological
order) of the condensation. -/
def kosaraju_scc (g : DiGraph) : List (List ℕ) :=
  sccLoop g (finish_order g).reverse [] []

/-- `LogicGraph::compile` (`src/resources.rs:82-84`): the cached evaluation
order is the concatenation of the strongly connected components, reversed —
`kosaraju_scc(&self.graph).into_iter().flatten().rev().collect()`. -/
def LogicGraph.compile (g : DiGraph) : List ℕ :=
  (kosaraju_scc g).flatten.reverse

theorem DfsRel.visited_mono {adj : ℕ → List ℕ} {nodes us : List ℕ}
    {s t : DfsSt} (h : DfsRel adj nodes us s t) :
    ∀ v, v ∈ s.visited → v ∈ t.visited := by
  induction h with
  | nil => exact fun _ h => h
  | skip _ _ ih => exact ih
  | go hu hn hsub hrest ih1 ih2 =>
    exact fun v hv => ih2 v (ih1 v (List.mem_cons_of_mem _ hv))

/-- The net effect of one search run: the finish list grows by a block
`ext` of pairwise distinct graph nodes, none previously visited, and the
visited set grows by exactly that block. -/
theorem DfsRel.delta {adj : ℕ → List ℕ} {nodes us : List ℕ}
    {s t : DfsSt} (h : DfsRel adj nodes us s t) :
    ∃ ext : List ℕ, t.post = s.post ++ ext ∧
      (∀ v, v ∈ t.visited ↔ v ∈ s.visited ∨ v ∈ ext) ∧
      ext.Nodup ∧ (∀ v ∈ ext, v ∉ s.visited ∧ v ∈ nodes) := by
  induction h with
  | nil s =>
    exact ⟨[], by simp, fun v => by simp, List.nodup_nil, by simp⟩
  | skip _ _ ih => exact ih
  | go hu hn hsub hrest ih1 ih2 =>
    rename_i u rest s s2 t
    obtain ⟨e1, he1, hv1, hn1, hf1⟩ := ih1
    obtain ⟨e2, he2, hv2, hn2, hf2⟩ := ih2
    simp only [DfsSt.mk.injEq] at *
    refine ⟨e1 ++ u :: e2, ?_, ?_, ?_, ?_⟩
    · rw [he2, he1]; simp
    · intro v
      rw [hv2, hv1]
      simp only [List.mem_cons, List.mem_append]
      tauto
    · rw [List.nodup_append]
      refine ⟨hn1, List.nodup_cons.mpr ⟨?_, hn2⟩, ?_⟩
      · -- u is not among the nodes discovered after it was finished
        intro hmem
        have := (hf2 u hmem).1
        exact this ((hv1 u).mpr (Or.inl (List.mem_cons_self u _)))
      · intro v hv1' hv2'
        rcases List.mem_cons.mp hv2' with rfl | hv2''
        · exact (hf1 v hv1').1 (List.mem_cons_self v _)
        · exact (hf2 v hv2'').1 ((hv1 v).mpr (Or.inr hv1'))
    · intro v hv
      rcases List.mem_append.mp hv with hv' | hv'
      · exact ⟨fun hm => (hf1 v hv').1 (List.mem_cons_of_mem _ hm), (hf1 v hv').2⟩
      · rcases List.mem_cons.mp hv' with rfl | hv''
        · exact ⟨hu, hn⟩
        · refine ⟨fun hm => (hf2 v hv'').1 ?_, (hf2 v hv'').2⟩
          exact (hv1 v).mpr (Or.inl (List.mem_cons_of_mem _ hm))

/-- Every graph node placed on the worklist has been visited by the end of
the run. -/
theorem DfsRel.worklist_visited {adj : ℕ → List ℕ} {nodes us : List ℕ}
    {s t : DfsSt} (h : DfsRel adj nodes us s t) :
    ∀ u ∈ us, u ∈ nodes → u ∈ t.visited := by
  induction h with
  | nil => intro u hu; cases hu
  | skip hh hrec ih =>
    rename_i u rest s t
    intro w hw hwn
    rcases List.mem_cons.mp hw with rfl | hw'
    · rcases hh with hv | hn
      · exact hrec.visited_mono w hv
      · exact absurd hwn hn
    · exact ih w hw' hwn
  | go hu hn hsub hrest ih1 ih2 =>
    rename_i u rest s s2 t
    intro w hw hwn
    rcases List.mem_cons.mp hw with rfl | hw'
    · exact hrest.visited_mono w (hsub.visited_mono w (List.mem_cons_self w _))
    · exact ih2 w hw' hwn

/-- A finish list is postorder-closed when every node finishes only after
all of its graph neighbours. -/
def PostOrdered (adj : ℕ → List ℕ) (nodes : List ℕ) (l : List ℕ) : Prop :=
  ∀ p u q, l = p ++ u :: q → ∀ v, v ∈ adj u → v ∈ nodes → v ∈ p

theorem concat_eq_append_cons {α : Type} :
    ∀ (p : List α) (l q : List α) (a x : α), l ++ [a] = p ++ x :: q →
      (p = l ∧ x = a ∧ q = []) ∨ ∃ q', q = q' ++ [a] ∧ l = p ++ x :: q' := by
  intro p
  induction p with
  | nil =>
    intro l q a x h
    cases l with
    | nil =>
      simp only [List.nil_append] at h
      injection h with h1 h2
      exact Or.inl ⟨rfl, h1.symm, h2.symm⟩
    | cons b l' =>
      simp only [List.cons_append, List.nil_append] at h
      injection h with h1 h2
      subst h1
      exact Or.inr ⟨l', h2.symm, rfl⟩
  | cons c p' ih =>
    intro l q a x h
    cases l with
    | nil =>
      simp only [List.nil_append, List.cons_append] at h
      injection h with h1 h2
      exact absurd h2.symm (by simp)
    | cons b l' =>
      simp only [List.cons_append] at h
      injection h with h1 h2
      subst h1
      rcases ih l' q a x h2 with ⟨hp, hx, hq⟩ | ⟨q', hq, hl⟩
      · exact Or.inl ⟨by rw [hp], hx, hq⟩
      · exact Or.inr ⟨q', hq, by rw [hl]; simp⟩

/-- The central invariant of the first search pass: on an acyclic graph a
node is appended to the finish list only after all of its neighbours, so a
postorder-closed finish list stays postorder-closed.  The `hgray` premise
tracks that every visited-but-unfinished node can reach every pending
worklist entry. -/
theorem DfsRel.postOrdered {adj : ℕ → List ℕ} {nodes : List ℕ}
    (hacy : ∀ x y, y ∈ adj x →
      ¬ Relation.ReflTransGen (fun a b => b ∈ adj a) y x) :
    ∀ {us : List ℕ} {s t : DfsSt}, DfsRel adj nodes us s t →
    (∀ w, w ∈ s.visited → w ∉ s.post → ∀ u' ∈ us,
      Relation.ReflTransGen (fun a b => b ∈ adj a) w u') →
    (∀ v ∈ s.post, v ∈ s.visited) →
    PostOrdered adj nodes s.post →
    PostOrdered adj nodes t.post := by
  intro us s t h
  induction h with
  | nil s => exact fun _ _ hpo => hpo
  | skip hh hrec ih =>
    intro hgray hsok hpo
    exact ih (fun w hw hwp u' hu' => hgray w hw hwp u' (List.mem_cons_of_mem _ hu'))
      hsok hpo
  | go hu hn hsub hrest ih1 ih2 =>
    rename_i u rest s s2 t
    intro hgray hsok hpo
    obtain ⟨e1, he1, hv1, hn1, hf1⟩ := hsub.delta
    simp only at he1 hv1 hf1
    -- the finish list after exploring `u`'s neighbours is postorder-closed
    have hpo2 : PostOrdered adj nodes s2.post := by
      apply ih1
      · intro w hw hwp u' hu'
        simp only [List.mem_cons] at hw
        rcases hw with rfl | hw'
        · exact Relation.ReflTransGen.single hu'
        · exact (hgray w hw' hwp u (List.mem_cons_self u _)).tail hu'
      · exact fun v hv => List.mem_cons_of_mem _ (hsok v hv)
      · exact hpo
    -- every graph neighbour of `u` is finished before `u` is
    have hclose : ∀ v, v ∈ adj u → v ∈ nodes → v ∈ s2.post := by
      intro v hva hvn
      by_contra hnv
      have hvis : v ∈ s2.visited := hsub.worklist_visited v hva hvn
      rcases (hv1 v).mp hvis with hvv | hve
      · rcases List.mem_cons.mp hvv with rfl | hvs
        · exact hacy v v hva Relation.ReflTransGen.refl
        · have hvp : v ∉ s.post := fun hm => hnv (he1 ▸ List.mem_append_left _ hm)
          exact hacy u v hva (hgray v hvs hvp u (List.mem_cons_self u _))
      · exact hnv (he1 ▸ List.mem_append_right _ hve)
    have hpo3 : PostOrdered adj nodes (s2.post ++ [u]) := by
      intro p x q hsplit v hva hvn
      rcases concat_eq_append_cons p s2.post q u x hsplit with
        ⟨rfl, rfl, rfl⟩ | ⟨q', hq, hl⟩
      · exact hclose v hva hvn
      · exact hpo2 p x q' hl v hva hvn
    apply ih2
    · intro w hw hwp u' hu'
      rcases (hv1 w).mp hw with hwv | hwe
      · rcases List.mem_cons.mp hwv with rfl | hws
        · exact absurd (List.mem_append_right _ (List.mem_singleton.mpr rfl)) hwp
        · have hwsp : w ∉ s.post := fun hm =>
            hwp (List.mem_append_left _ (he1 ▸ List.mem_append_left _ hm))
          exact hgray w hws hwsp u' (List.mem_cons_of_mem _ hu')
      · exact absurd (List.mem_append_left _ (he1 ▸ List.mem_append_right _ hwe)) hwp
    · intro v hv
      rcases List.mem_append.mp hv with hv' | hv'
      · rw [he1] at hv'
        rcases List.mem_append.mp hv' with hv'' | hv''
        · exact hsub.visited_mono v (List.mem_cons_of_mem _ (hsok v hv''))
        · exact (hv1 v).mpr (Or.inr hv'')
      · rcases List.mem_singleton.mp hv' with rfl
        exact hsub.visited_mono v (List.mem_cons_self v _)
    · exact hpo3

theorem DiGraph.mem_succ {g : DiGraph} {u v : ℕ} :
    v ∈ g.succ u ↔ (u, v) ∈ g.edges := by
  simp only [DiGraph.succ, List.mem_map, List.mem_filter, decide_eq_true_eq]
  constructor
  · rintro ⟨e, ⟨he, h1⟩, h2⟩
    cases e
    cases h1
    cases h2
    exact he
  · intro h
    exact ⟨(u, v), ⟨h, rfl⟩, rfl⟩

theorem DiGraph.mem_pred {g : DiGraph} {u v : ℕ} :
    v ∈ g.pred u ↔ (v, u) ∈ g.edges := by
  simp only [DiGraph.pred, List.mem_map, List.mem_filter, decide_eq_true_eq]
  constructor
  · rintro ⟨e, ⟨he, h1⟩, h2⟩
    cases e
    cases h1
    cases h2
    exact he
  · intro h
    exact ⟨(v, u), ⟨h, rfl⟩, rfl⟩

theorem reach_of_predReach {g : DiGraph} {a b : ℕ}
    (h : Relation.ReflTransGen (fun x y => y ∈ g.pred x) a b) :
    g.Reaches b a := by
  induction h with
  | refl => exact Relation.ReflTransGen.refl
  | tail h1 h2 ih =>
    exact Relation.ReflTransGen.head (DiGraph.mem_pred.mp h2) ih

/-- Acyclicity transfers to the reversed graph's adjacency. -/
theorem pred_acyclic {g : DiGraph} (hacyc : g.Acyclic) :
    ∀ x y, y ∈ g.pred x →
      ¬ Relation.ReflTransGen (fun a b => b ∈ g.pred a) y x := by
  intro x y hy hr
  exact hacyc y x (DiGraph.mem_pred.mp hy) (reach_of_predReach hr)

theorem finish_order_rel (g : DiGraph) :
    DfsRel g.pred g.nodes g.nodes ⟨[], [], []⟩ (finishOrderSt g) :=
  dfsAux_sound g.pred g.nodes g.nodes ⟨[], [], []⟩

theorem finish_order_nodup (g : DiGraph) : (finish_order g).Nodup := by
  obtain ⟨ext, hpost, _, hnd, _⟩ := (finish_order_rel g).delta
  simp only at hpost
  rw [finish_order, hpost]
  simpa using hnd

theorem mem_finish_order (g : DiGraph) :
    ∀ v, v ∈ finish_order g ↔ v ∈ g.nodes := by
  obtain ⟨ext, hpost, hvis, _, hfresh⟩ := (finish_order_rel g).delta
  simp only at hpost hvis hfresh
  intro v
  constructor
  · intro hv
    rw [finish_order, hpost] at hv
    simp only [List.nil_append] at hv
    exact (hfresh v hv).2
  · intro hv
    have := (finish_order_rel g).worklist_visited v hv hv
    rcases (hvis v).mp this with h0 | hext
    · cases h0
    · rw [finish_order, hpost]
      simpa using hext

theorem finish_order_postOrdered {g : DiGraph} (hacyc : g.Acyclic) :
    PostOrdered g.pred g.nodes (finish_order g) := by
  have := DfsRel.postOrdered (pred_acyclic hacyc) (finish_order_rel g)
    (by intro w hw; cases hw)
    (by intro v hv; cases hv)
    (by intro p u q hsplit; exact absurd hsplit (by simp))
  exact this

theorem subtypeValMk {α : Type} {p : α → Prop} (x : α) (h : p x) :
    (Subtype.mk x h).val = x := rfl

theorem dfsAux_stall (adj : ℕ → List ℕ) (nodes : List ℕ) :
    ∀ (ws : List ℕ) (s : DfsSt), (∀ w ∈ ws, w ∈ s.visited) →
      (dfsAux adj nodes ws s).val = s := by
  intro ws
  induction ws with
  | nil => intro s _; rw [dfsAux]
  | cons w ws ih =>
    intro s h
    rw [dfsAux, dif_pos (Or.inl (h w (List.mem_cons_self w _)))]
    exact ih s fun x hx => h x (List.mem_cons_of_mem _ hx)

/-- A search rooted at a node whose neighbours are all visited discovers
(and finishes) exactly that node. -/
theorem dfsAux_single (adj : ℕ → List ℕ) (nodes : List ℕ) (i : ℕ)
    (vis pre post : List ℕ) (hi : i ∉ vis) (hn : i ∈ nodes)
    (hsucc : ∀ v ∈ adj i, v ∈ i :: vis) :
    (dfsAux adj nodes [i] (⟨vis, pre, post⟩ : DfsSt)).val =
      ⟨i :: vis, pre ++ [i], post ++ [i]⟩ := by
  rw [dfsAux, dif_neg (by simp [hi, hn])]
  have hstall : (dfsAux adj nodes (adj i)
      (⟨i :: vis, pre ++ [i], post⟩ : DfsSt)).val =
      ⟨i :: vis, pre ++ [i], post⟩ :=
    dfsAux_stall adj nodes (adj i) _ hsucc
  rw [subtypeValMk]
  rw [hstall]
  rw [dfsAux]

/-- On a graph where every successor of a pending root has already been
visited (the situation the first pass guarantees for acyclic graphs), the
second Kosaraju pass emits exactly one singleton component per pending
root, in order. -/
theorem sccLoop_singles (g : DiGraph) :
    ∀ (l vis : List ℕ) (sccs : List (List ℕ)),
      l.Nodup → (∀ i ∈ l, i ∈ g.nodes) → (∀ i ∈ l, i ∉ vis) →
      (∀ i ∈ l, ∀ v, v ∈ g.succ i →
        v ∈ vis ∨ ∃ p1 p2, l = p1 ++ v :: p2 ∧ i ∈ p2) →
      sccLoop g l vis sccs = sccs ++ l.map (fun i => [i]) := by
  intro l
  induction l with
  | nil =>
    intro vis sccs _ _ _ _
    rw [sccLoop]
    simp
  | cons i rest ih =>
    intro vis sccs hnd hnodes hfresh hsucc
    have hir : i ∉ rest := (List.nodup_cons.mp hnd).1
    have hsu : ∀ v ∈ g.succ i, v ∈ i :: vis := by
      intro v hv
      rcases hsucc i (List.mem_cons_self i _) v hv with hvv | ⟨p1, p2, hsplit, hip⟩
      · exact List.mem_cons_of_mem _ hvv
      · cases p1 with
        | nil =>
          simp only [List.nil_append] at hsplit
          injection hsplit with h1 h2
          subst h1
          subst h2
          exact absurd hip hir
        | cons a p1' =>
          simp only [List.cons_append] at hsplit
          injection hsplit with h1 h2
          subst h1
          exact absurd (h2 ▸ List.mem_append_right _ (List.mem_cons_of_mem _ hip)) hir
    rw [sccLoop]
    rw [if_neg (hfresh i (List.mem_cons_self i _))]
    have hsingle := dfsAux_single g.succ g.nodes i vis [] []
      (hfresh i (List.mem_cons_self i _)) (hnodes i (List.mem_cons_self i _)) hsu
    simp only [hsingle]
    simp only [List.nil_append]
    rw [ih (i :: vis) (sccs ++ [[i]]) (List.nodup_cons.mp hnd).2
      (fun j hj => hnodes j (List.mem_cons_of_mem _ hj))
      (by
        intro j hj
        simp only [List.mem_cons, not_or]
        exact ⟨fun hji => hir (hji ▸ hj), hfresh j (List.mem_cons_of_mem _ hj)⟩)
      (by
        intro j hj v hv
        rcases hsucc j (List.mem_cons_of_mem _ hj) v hv with hvv | ⟨p1, p2, hsplit, hjp⟩
        · exact Or.inl (List.mem_cons_of_mem _ hvv)
        · cases p1 with
          | nil =>
            simp only [List.nil_append] at hsplit
            injection hsplit with h1 h2
            subst h1
            exact Or.inl (List.mem_cons_self _ _)
          | cons a p1' =>
            simp only [List.cons_append] at hsplit
            injection hsplit with h1 h2
            exact Or.inr ⟨p1', p2, h2, hjp⟩)]
    simp

theorem flatten_map_singleton (l : List ℕ) :
    (l.map fun i => [i]).flatten = l := by
  induction l with
  | nil => simp
  | cons a t ih => simp [ih]

/-- On an acyclic well-formed graph every strongly connected component is
a singleton, emitted in decreasing finish order. -/
theorem kosaraju_scc_acyclic {g : DiGraph} (hwf : g.WF) (hacyc : g.Acyclic) :
    kosaraju_scc g = (finish_order g).reverse.map (fun i => [i]) := by
  rw [kosaraju_scc]
  apply sccLoop_singles
  · exact List.nodup_reverse.mpr (finish_order_nodup g)
  · intro i hi
    exact (mem_finish_order g i).mp (List.mem_reverse.mp hi)
  · intro i _
    exact List.not_mem_nil i
  · intro i hi v hv
    have hedge : (i, v) ∈ g.edges := DiGraph.mem_succ.mp hv
    have hvn : v ∈ g.nodes := (hwf.2 _ hedge).2
    have hin : i ∈ g.nodes := (hwf.2 _ hedge).1
    have hvfo : v ∈ finish_order g := (mem_finish_order g v).mpr hvn
    obtain ⟨p, q, hsplit⟩ := List.append_of_mem hvfo
    have hip : i ∈ p :=
      finish_order_postOrdered hacyc p v q hsplit i (DiGraph.mem_pred.mpr hedge) hin
    refine Or.inr ⟨q.reverse, p.reverse, ?_, List.mem_reverse.mpr hip⟩
    rw [hsplit]
    simp

/-- On an acyclic well-formed graph the compiled order is exactly the first
pass's finish order. -/
theorem compile_eq_finish_order {g : DiGraph} (hwf : g.WF) (hacyc : g.Acyclic) :
    LogicGraph.compile g = finish_order g := by
  rw [LogicGraph.compile, kosaraju_scc_acyclic hwf hacyc,
    flatten_map_singleton, List.reverse_reverse]

theorem indexOf_lt_of_split :
    ∀ (p q : List ℕ) (u v : ℕ), (p ++ u :: q).Nodup → v ∈ p →
      (p ++ u :: q).indexOf v < (p ++ u :: q).indexOf u := by
  intro p
  induction p with
  | nil => intro q u v _ hv; cases hv
  | cons a p' ih =>
    intro q u v hnd hv
    have hnd0 : (a :: (p' ++ u :: q)).Nodup := by
      rw [List.cons_append] at hnd
      exact hnd
    have hnd' := List.nodup_cons.mp hnd0
    have hau : a ≠ u := by
      intro h
      exact hnd'.1 (by rw [h]; exact List.mem_append_right _ (List.mem_cons_self u _))
    by_cases hva : v = a
    · subst hva
      rw [List.cons_append, List.indexOf_cons_self,
        List.indexOf_cons_ne _ hau]
      exact Nat.succ_pos _
    · have hva' : a ≠ v := fun h => hva h.symm
      rcases List.mem_cons.mp hv with h | hv'
      · exact absurd h hva
      · rw [List.cons_append, List.indexOf_cons_ne _ hva',
          List.indexOf_cons_ne _ hau]
        exact Nat.succ_lt_succ (ih q u v hnd'.2 hv')

/-- A strictly edge-increasing rank witnesses acyclicity. -/
theorem DiGraph.acyclic_of_rank (g : DiGraph) (r : ℕ → ℕ)
    (h : ∀ e ∈ g.edges, r e.1 < r e.2) : g.Acyclic := by
  have hmono : ∀ a b, g.Reaches a b → r a ≤ r b := by
    intro a b hr
    induction hr with
    | refl => exact Nat.le_refl _
    | tail h1 h2 ih => exact Nat.le_trans ih (Nat.le_of_lt (h _ h2))
  intro x y hxy hreach
  have h1 := hmono y x hreach
  have h2 : r x < r y := h (x, y) hxy
  omega

/-- The diamond dependency graph `A→B`, `A→C`, `B→D`, `C→D` from the
spec's testable properties (`A,B,C,D` as gate entities `0,1,2,3`). -/
def diamondGraph : DiGraph :=
  ⟨[0, 1, 2, 3], [(0, 1), (0, 2), (1, 3), (2, 3)]⟩

/-!
## Claim theorems
-/

/-- C4: for every signal `s`, `Undefined` is absorbing for both addition
and subtraction: `s + Undefined`, `Undefined + s`, `s - Undefined` and
`Undefined - s` are all `Undefined`. -/
theorem undefined_absorbing_add_sub (s : Signal) :
    s + Signal.Undefined = Signal.Undefined ∧
    Signal.Undefined + s = Signal.Undefined ∧
    s - Signal.Undefined = Signal.Undefined ∧
    Signal.Undefined - s = Signal.Undefined := by
  cases s with
  | Analog x => exact ⟨rfl, rfl, rfl, rfl⟩
  | Digital b => cases b <;> exact ⟨rfl, rfl, rfl, rfl⟩
  | Undefined => exact ⟨rfl, rfl, rfl, rfl⟩

/-- C4 witness: the absorption laws at the concrete signal `ON`. -/
theorem undefined_absorbing_add_sub_witness :
    Signal.ON + Signal.Undefined = Signal.Undefined ∧
    Signal.Undefined + Signal.ON = Signal.Undefined ∧
    Signal.ON - Signal.Undefined = Signal.Undefined ∧
    Signal.Undefined - Signal.ON = Signal.Undefined :=
  undefined_absorbing_add_sub Signal.ON

/-- C5: `is_truthy` holds exactly for `Digital(true)` and `Analog` of a
normal float — `Digital(false)`, `Undefined`, and analog NaN, infinities,
zero and subnormals are all falsy — and `is_falsy` is its complement on
every signal. -/
theorem is_truthy_is_falsy_spec :
    Signal.is_truthy Signal.ON = true ∧
    Signal.is_truthy Signal.OFF = false ∧
    Signal.is_truthy Signal.Undefined = false ∧
    (∀ x : F32, Signal.is_truthy (Signal.Analog x) = x.is_normal) ∧
    Signal.is_truthy (Signal.Analog F32.nan) = false ∧
    (∀ b : Bool, Signal.is_truthy (Signal.Analog (F32.inf b)) = false) ∧
    Signal.is_truthy (Signal.Analog (F32.fin 0)) = false ∧
    (∀ q : ℚ, q ≠ 0 → |q| < F32.minNormal →
      Signal.is_truthy (Signal.Analog (F32.fin q)) = false) ∧
    (∀ q : ℚ, F32.minNormal ≤ |q| →
      Signal.is_truthy (Signal.Analog (F32.fin q)) = true) ∧
    (∀ s : Signal, s.is_falsy = !s.is_truthy) := by
  refine ⟨rfl, rfl, rfl, fun x => rfl, rfl, fun b => rfl, by decide, ?_, ?_, ?_⟩
  · intro q hq hlt
    simp [Signal.is_truthy, F32.is_normal, hq, not_le.mpr hlt]
  · intro q hge
    have hq : q ≠ 0 := by
      intro h
      rw [h] at hge
      simp only [abs_zero] at hge
      have : (0 : ℚ) < F32.minNormal := by
        rw [F32.minNormal]
        norm_num
      linarith
    simp [Signal.is_truthy, F32.is_normal, hq, hge]
  · intro s
    cases s with
    | Analog x => rfl
    | Digital b => cases b <;> rfl
    | Undefined => rfl

/-- C5 witness: the spec's concrete cases — `Analog(2.5)` is truthy,
`Analog(2^(-127))` (a subnormal magnitude) is falsy, and `is_falsy`
complements `is_truthy` on `Analog(0.0)`. -/
theorem is_truthy_is_falsy_spec_witness :
    Signal.is_truthy (Signal.Analog (F32.fin (5 / 2))) = true ∧
    Signal.is_truthy (Signal.Analog (F32.fin (1 / 2 ^ 127))) = false ∧
    Signal.is_falsy (Signal.Analog (F32.fin 0)) =
      !Signal.is_truthy (Signal.Analog (F32.fin 0)) :=
  ⟨is_truthy_is_falsy_spec.2.2.2.2.2.2.2.2.1 (5 / 2)
      (by rw [F32.minNormal]; rw [abs_of_pos (by norm_num)]; norm_num),
    is_truthy_is_falsy_spec.2.2.2.2.2.2.2.1 (1 / 2 ^ 127) (by norm_num)
      (by rw [F32.minNormal]; rw [abs_of_pos (by norm_num)]; norm_num),
    is_truthy_is_falsy_spec.2.2.2.2.2.2.2.2.2 (Signal.Analog (F32.fin 0))⟩

/-- C10: `Undefined` is an identity for `max_abs`: combining any signal
with `Undefined` on either side returns the other operand unchanged. -/
theorem max_abs_undefined_identity (v : Signal) :
    Signal.max_abs Signal.Undefined v = v ∧
    Signal.max_abs v Signal.Undefined = v := by
  cases v with
  | Analog x => exact ⟨rfl, rfl⟩
  | Digital b => cases b <;> exact ⟨rfl, rfl⟩
  | Undefined => exact ⟨rfl, rfl⟩

/-- C6: `OrGate::evaluate` writes one signal to every output slot: the
truthiness disjunction of the inputs by default, the left `+`-fold of the
inputs from `Digital(false)` when `is_adder`, negated by `!` when
`invert_output` (NOR). -/
theorem or_gate_evaluate_spec (g : OrGate) (inputs outputs : List Signal) :
    ∃ base : Signal,
      (g.is_adder = false → base = Signal.Digital (inputs.any Signal.is_truthy)) ∧
      (g.is_adder = true →
        base = inputs.foldl (fun acc input => acc + input) Signal.OFF) ∧
      OrGate.evaluate g inputs outputs =
        outputs.map fun _ => if g.invert_output then base.not else base := by
  refine ⟨if g.is_adder then inputs.foldl (fun acc input => acc + input) Signal.OFF
    else Signal.Digital (inputs.any Signal.is_truthy), ?_, ?_, ?_⟩
  · intro h
    rw [h]
    rfl
  · intro h
    rw [h]
    rfl
  · rfl

/-- C6 witness: a plain OR gate over inputs `[ON]` drives both of its
output slots to `ON`. -/
theorem or_gate_evaluate_spec_witness :
    OrGate.evaluate ⟨false, false⟩ [Signal.ON] [Signal.OFF, Signal.OFF] =
      [Signal.ON, Signal.ON] := by
  obtain ⟨base, h1, _, h3⟩ :=
    or_gate_evaluate_spec ⟨false, false⟩ [Signal.ON] [Signal.OFF, Signal.OFF]
  rw [h3, h1 rfl]
  rfl

/-- C7: the XOR gate (modelled from the spec, no implementation in `src/`)
writes `Digital(true)` to its outputs exactly when the number of truthy
inputs is odd; `[true, false, true]` (two truthy) gives `false` and
`[true, false, false]` gives `true`. -/
theorem xor_gate_evaluate_spec (inputs outputs : List Signal) :
    XorGate.evaluate inputs outputs =
      (outputs.map fun _ =>
        Signal.Digital (decide (Odd (inputs.countP Signal.is_truthy)))) ∧
    XorGate.evaluate [Signal.ON, Signal.OFF, Signal.ON] [Signal.Undefined] =
      [Signal.OFF] ∧
    XorGate.evaluate [Signal.ON, Signal.OFF, Signal.OFF] [Signal.Undefined] =
      [Signal.ON] := by
  refine ⟨?_, by decide, by decide⟩
  have hodd : ∀ n : ℕ, decide (Odd n) = decide (n % 2 = 1) := by
    intro n
    simp [Nat.odd_iff]
  rw [XorGate.evaluate]
  simp only [hodd]
  rfl

/-- C2 counterexample: with length-mismatched ports the passthrough node
does not abort in a release build — the length assertion is compiled only
under `cfg(debug_assertions)`, so `evaluate` proceeds (here: one input,
zero outputs, and the zip copies nothing). -/
theorem logic_node_mismatch_release_proceeds :
    LogicNode.evaluate false [Signal.ON] [] = some [] := rfl

/-- C2 (amended): with equal port counts the passthrough node copies
`inputs[i]` to `outputs[i]` for every `i`; a mismatch panics only when
`cfg(debug_assertions)` is enabled, while a release build proceeds,
copying the first `min` signals and leaving the remaining outputs
untouched. -/
theorem logic_node_evaluate_spec (debugAssertions : Bool)
    (inputs outputs : List Signal) :
    (inputs.length = outputs.length →
      LogicNode.evaluate debugAssertions inputs outputs = some inputs) ∧
    (inputs.length ≠ outputs.length →
      LogicNode.evaluate true inputs outputs = none) ∧
    (inputs.length ≠ outputs.length →
      LogicNode.evaluate false inputs outputs =
        some (inputs.take (min outputs.length inputs.length) ++
          outputs.drop (min outputs.length inputs.length))) := by
  refine ⟨?_, ?_, ?_⟩
  · intro hlen
    rw [LogicNode.evaluate, if_neg (by simp [hlen])]
    simp only [hlen, min_self]
    rw [List.take_of_length_le (le_of_eq hlen), List.drop_length,
      List.append_nil]
  · intro hlen
    rw [LogicNode.evaluate, if_pos ⟨rfl, hlen⟩]
  · intro hlen
    rw [LogicNode.evaluate, if_neg (by simp)]

/-- C2 witness: equal lengths copy the input through; a mismatch aborts
under debug assertions. -/
theorem logic_node_evaluate_spec_witness :
    LogicNode.evaluate true [Signal.ON] [Signal.OFF] = some [Signal.ON] ∧
    LogicNode.evaluate true [Signal.ON] [] = none :=
  ⟨(logic_node_evaluate_spec true [Signal.ON] [Signal.OFF]).1 (by decide),
    (logic_node_evaluate_spec true [Signal.ON] []).2.1 (by decide)⟩

/-- C8: on a tick, an owner (wire or gate) whose `Desync` counter is
nonzero is skipped — the wire propagates nothing and the gate does not
evaluate — and the counter drops by exactly one; a zero or absent counter
participates normally and is left unchanged; the only increase is the
fixed creation step of `2`; counters live in `ℕ` (`u32`) and the guarded
decrement never underflows. -/
theorem desync_tick_spec :
    (∀ n : ℕ, n ≠ 0 → Desync.tickGate (some n) = (true, some (n - 1))) ∧
    Desync.tickGate (some 0) = (false, some 0) ∧
    Desync.tickGate none = (false, none) ∧
    (∀ n : ℕ, Desync.increment n = n + 2) ∧
    (∀ (sources sinks : ℕ → Signal) (w : WireEnt) (n : ℕ),
      w.desync = some (n + 1) →
      propagateWire sources sinks w = ({ w with desync := some n }, sinks)) ∧
    (∀ (sources sinks : ℕ → Signal) (w : WireEnt),
      w.desync = none ∨ w.desync = some 0 →
      propagateWire sources sinks w =
        ({ w with signal := sources w.source },
          fun i => if i = w.sink then sources w.source else sinks i)) ∧
    (∀ (g : GateEnt) (n : ℕ), g.desync = some (n + 1) →
      evaluateGate g = { g with desync := some n }) ∧
    (∀ g : GateEnt, g.desync = none ∨ g.desync = some 0 →
      evaluateGate g = { g with outputs := g.eval g.inputs g.outputs }) := by
  refine ⟨?_, rfl, rfl, fun n => rfl, ?_, ?_, ?_, ?_⟩
  · intro n hn
    simp [Desync.tickGate, Nat.pos_of_ne_zero hn]
  · intro sources sinks w n hd
    rw [propagateWire, hd]
    simp [Desync.tickGate]
  · intro sources sinks w hd
    rcases hd with hd | hd <;>
      · rw [propagateWire, hd]
        simp [Desync.tickGate]
  · intro g n hd
    rw [evaluateGate, hd]
    simp [Desync.tickGate]
  · intro g hd
    rcases hd with hd | hd <;>
      · rw [evaluateGate, hd]
        simp [Desync.tickGate]

/-- C8 witness: a wire with a fresh two-tick counter is skipped and its
counter drops to one; a gate with a zero counter evaluates normally. -/
theorem desync_tick_spec_witness :
    Desync.tickGate (some 2) = (true, some 1) ∧
    propagateWire (fun _ => Signal.ON) (fun _ => Signal.OFF)
        ⟨0, 1, Signal.Undefined, some 2⟩ =
      (⟨0, 1, Signal.Undefined, some 1⟩, fun _ => Signal.OFF) ∧
    evaluateGate ⟨fun inputs _ => inputs, [Signal.ON], [Signal.OFF], some 0⟩ =
      ⟨fun inputs _ => inputs, [Signal.ON], [Signal.ON], some 0⟩ :=
  ⟨desync_tick_spec.1 2 (by decide),
    desync_tick_spec.2.2.2.2.1 (fun _ => Signal.ON) (fun _ => Signal.OFF)
      ⟨0, 1, Signal.Undefined, some 2⟩ 1 rfl,
    desync_tick_spec.2.2.2.2.2.2.2
      ⟨fun inputs _ => inputs, [Signal.ON], [Signal.OFF], some 0⟩ (Or.inr rfl)⟩


theorem expendLoop_eq_pos (c : LogicStepClock)
    (h : 0 < c.timestep ∧ c.timestep ≤ c.overstep) :
    c.expendLoop = ((LogicStepClock.expend c).2.expendLoop.1,
      (LogicStepClock.expend c).2.expendLoop.2 + 1) := by
  rw [LogicStepClock.expendLoop, dif_pos h]

theorem expendLoop_eq_neg (c : LogicStepClock)
    (h : ¬(0 < c.timestep ∧ c.timestep ≤ c.overstep)) :
    c.expendLoop = (c, 0) := by
  rw [LogicStepClock.expendLoop, dif_neg h]

theorem expendLoop_spec :
    ∀ c : LogicStepClock, 0 < c.timestep →
      c.expendLoop.2 = c.overstep / c.timestep ∧
      c.expendLoop.1.overstep = c.overstep % c.timestep ∧
      c.expendLoop.1.timestep = c.timestep ∧
      c.expendLoop.1.elapsed =
        c.elapsed + c.overstep / c.timestep * c.timestep := by
  intro c
  induction c using LogicStepClock.expendLoop.induct with
  | case1 c h next ih =>
    intro hts
    have hval : (LogicStepClock.expend c).2 =
        { c with overstep := c.overstep - c.timestep,
                 elapsed := c.elapsed + c.timestep } := by
      rw [LogicStepClock.expend, if_pos h.2]
    have hnext : next =
        { c with overstep := c.overstep - c.timestep,
                 elapsed := c.elapsed + c.timestep } := hval
    rw [hnext] at ih
    obtain ⟨ih1, ih2, ih3, ih4⟩ := ih hts
    rw [expendLoop_eq_pos c h, hval]
    simp only at ih1 ih2 ih3 ih4 ⊢
    have hdiv : c.overstep / c.timestep =
        (c.overstep - c.timestep) / c.timestep + 1 :=
      Nat.div_eq_sub_div h.1 h.2
    have hmod : c.overstep % c.timestep =
        (c.overstep - c.timestep) % c.timestep :=
      Nat.mod_eq_sub_mod h.2
    refine ⟨by rw [ih1, hdiv], by rw [ih2, hmod], ih3, ?_⟩
    rw [ih4, hdiv]
    ring
  | case2 c h =>
    intro hts
    rw [expendLoop_eq_neg c h]
    push_neg at h
    have hlt := h hts
    refine ⟨(Nat.div_eq_of_lt hlt).symm, (Nat.mod_eq_of_lt hlt).symm, rfl, ?_⟩
    rw [Nat.div_eq_of_lt hlt]
    simp

/-- C9: `expend` returns `true` and moves exactly one timestep from the
overstep accumulator to the logic clock when a full timestep has
accumulated, and returns `false` leaving the clock unchanged otherwise;
consequently one outer `run_fixed_main_schedule` update runs exactly one
evaluation pass per full accumulated timestep
(`⌊(overstep + delta) / timestep⌋` passes) and exits the loop with the
remainder, which is smaller than one timestep. -/
theorem expend_run_fixed_main_spec :
    (∀ c : LogicStepClock, c.timestep ≤ c.overstep →
      c.expend = (true, { c with overstep := c.overstep - c.timestep,
                                 elapsed := c.elapsed + c.timestep })) ∧
    (∀ c : LogicStepClock, c.overstep < c.timestep → c.expend = (false, c)) ∧
    (∀ (c : LogicStepClock) (delta : ℕ), 0 < c.timestep →
      (runFixedMainSchedule c delta).2 = (c.overstep + delta) / c.timestep ∧
      (runFixedMainSchedule c delta).1.overstep =
        (c.overstep + delta) % c.timestep ∧
      (runFixedMainSchedule c delta).1.overstep < c.timestep ∧
      (runFixedMainSchedule c delta).1.elapsed =
        c.elapsed + (c.overstep + delta) / c.timestep * c.timestep) := by
  refine ⟨?_, ?_, ?_⟩
  · intro c hle
    rw [LogicStepClock.expend, if_pos hle]
  · intro c hlt
    rw [LogicStepClock.expend, if_neg (Nat.not_le_of_lt hlt)]
  · intro c delta hts
    have hacc : (c.accumulate delta).overstep = c.overstep + delta := rfl
    obtain ⟨h1, h2, _, h4⟩ := expendLoop_spec (c.accumulate delta) hts
    rw [runFixedMainSchedule]
    rw [h1, h2, h4, hacc]
    refine ⟨rfl, rfl, ?_, rfl⟩
    have hts2 : (c.accumulate delta).timestep = c.timestep := rfl
    rw [hts2]
    exact Nat.mod_lt _ hts

/-- C9 witness: a clock with a 4ns timestep, 3ns of prior overstep and a
10ns delta runs exactly three passes, ends with 1ns of overstep and
advances the logic clock by 12ns. -/
theorem expend_run_fixed_main_spec_witness :
    (LogicStepClock.expend ⟨4, 7, 0⟩ =
      (true, { timestep := 4, overstep := 3, elapsed := 4 })) ∧
    (runFixedMainSchedule ⟨4, 3, 0⟩ 10).2 = 3 ∧
    (runFixedMainSchedule ⟨4, 3, 0⟩ 10).1.overstep = 1 ∧
    (runFixedMainSchedule ⟨4, 3, 0⟩ 10).1.elapsed = 12 := by
  obtain ⟨h1, h2, h3, h4⟩ :=
    expend_run_fixed_main_spec.2.2 ⟨4, 3, 0⟩ 10 (by decide)
  refine ⟨expend_run_fixed_main_spec.1 ⟨4, 7, 0⟩ (by decide), ?_, ?_, ?_⟩
  · rw [h1]
    decide
  · rw [h2]
    decide
  · rw [h4]
    decide

theorem Counter.increment_stale (c : Counter) :
    c.increment.stale_inputs = c.stale_inputs := by
  rw [Counter.increment]
  split <;> rfl

theorem Counter.decrement_stale (c : Counter) :
    c.decrement.stale_inputs = c.stale_inputs := by
  rw [Counter.decrement]
  split <;> rfl

theorem Counter.reset_stale (c : Counter) :
    c.reset.stale_inputs = c.stale_inputs := rfl

/-- C3 counterexample: the debounce flags track only the input index the
gate reacted on, so an input held truthy across two consecutive
evaluations can still re-trigger the gate.  A `Counter` sees `[ON, ON]`
(reacting to the reset on index 0) and then `[OFF, ON]`: input 1 was
truthy both times, yet the second evaluation increments the count from 0
to 1 — the held input re-triggered, contradicting the claim. -/
theorem counter_held_input_retriggers :
    Signal.is_truthy Signal.ON = true ∧
    Counter.evaluate (Counter.new 0 10 false) [Signal.ON, Signal.ON]
        [Signal.OFF] =
      some (⟨0, 10, false, (true, false)⟩, [Signal.OFF]) ∧
    Counter.evaluate ⟨0, 10, false, (true, false)⟩ [Signal.OFF, Signal.ON]
        [Signal.OFF] =
      some (⟨1, 10, false, (true, true)⟩, [Signal.OFF]) := by
  refine ⟨rfl, ?_, ?_⟩ <;> decide

/-- C3 (amended): the stale flags debounce only the *selected* input of a
stateful gate.  For the `Counter` (which selects the first truthy input):
a set stale flag on the selected index blocks the whole reaction, the flag
is set by any evaluation that selects the index, and the flags are cleared
only by an evaluation in which every input is falsy.  For the `Selector`
(which selects the highest truthy input): the debounced cycle input
(index 0) is ignored while its flag is set, the flag is set whenever the
cycle input is selected, and it is cleared only by an all-falsy
evaluation.  Held inputs other than the selected one are not debounced
(see the counterexample), and a false→true transition can be ignored while
the index's flag is still set. -/
theorem stateful_gate_debounce_spec :
    (∀ (c : Counter) (inputs outputs : List Signal) (i : ℕ) (s : Signal),
      findPosition Signal.is_truthy inputs = some (i, s) →
      c.stale_get i = some true →
      Counter.evaluate c inputs outputs = some (c, outputs)) ∧
    (∀ (c c' : Counter) (inputs outputs outs' : List Signal) (i : ℕ)
        (s : Signal),
      findPosition Signal.is_truthy inputs = some (i, s) →
      Counter.evaluate c inputs outputs = some (c', outs') →
      c'.stale_get i = some true) ∧
    (∀ (c c' : Counter) (inputs outputs outs' : List Signal),
      findPosition Signal.is_truthy inputs = none →
      Counter.evaluate c inputs outputs = some (c', outs') →
      c'.stale_inputs = (false, false)) ∧
    (∀ (dbg : Bool) (sel : Selector) (inputs outputs : List Signal)
        (ri : ℕ) (s : Signal),
      sel.stale_cycle_input = true →
      findPosition Signal.is_truthy inputs.reverse = some (ri, s) →
      inputs.length - 1 - ri = 0 →
      ¬(dbg = true ∧ inputs.length ≠ outputs.length + 1) →
      Selector.evaluate dbg sel inputs outputs = some (sel, outputs)) ∧
    (∀ (dbg : Bool) (sel sel' : Selector) (inputs outputs outs' : List Signal)
        (ri : ℕ) (s : Signal),
      findPosition Signal.is_truthy inputs.reverse = some (ri, s) →
      inputs.length - 1 - ri = 0 →
      Selector.evaluate dbg sel inputs outputs = some (sel', outs') →
      sel'.stale_cycle_input = true) ∧
    (∀ (dbg : Bool) (sel sel' : Selector) (inputs outputs outs' : List Signal),
      findPosition Signal.is_truthy inputs.reverse = none →
      Selector.evaluate dbg sel inputs outputs = some (sel', outs') →
      sel'.stale_cycle_input = false) := by
  refine ⟨?_, ?_, ?_, ?_, ?_, ?_⟩
  · intro c inputs outputs i s hfind hstale
    rw [Counter.evaluate, hfind]
    dsimp only
    rw [hstale]
  · intro c c' inputs outputs outs' i s hfind heval
    rw [Counter.evaluate, hfind] at heval
    dsimp only at heval
    rcases hsg : c.stale_get i with _ | b
    · simp only [hsg] at heval
      cases heval
    · cases b
      · simp only [hsg] at heval
        match i, hsg with
        | 0, hsg =>
          cases outputs with
          | nil =>
            simp only [Counter.write_output] at heval
            cases heval
          | cons o rest =>
            simp only [Counter.write_output, Option.some.injEq,
              Prod.mk.injEq] at heval
            rw [← heval.1]
            rfl
        | 1, hsg =>
          cases outputs with
          | nil =>
            rcases hneg : Signal.is_sign_negative s with _ | _ <;>
              · simp only [hneg, Bool.false_eq_true, if_false, if_true,
                  Counter.write_output] at heval
                cases heval
          | cons o rest =>
            rcases hneg : Signal.is_sign_negative s with _ | _ <;>
              · simp only [hneg, Bool.false_eq_true, if_false, if_true,
                  Counter.write_output, Option.some.injEq,
                  Prod.mk.injEq] at heval
                rw [← heval.1]
                simp [Counter.stale_get, Counter.increment_stale,
                  Counter.decrement_stale, Counter.stale_set]
        | (n + 2), hsg =>
          simp only [Counter.stale_get] at hsg
          cases hsg
      · simp only [hsg, Option.some.injEq, Prod.mk.injEq] at heval
        rw [← heval.1]
        exact hsg
  · intro c c' inputs outputs outs' hfind heval
    rw [Counter.evaluate, hfind] at heval
    dsimp only at heval
    cases outputs with
    | nil =>
      simp only [Counter.write_output] at heval
      cases heval
    | cons o rest =>
      simp only [Counter.write_output, Option.some.injEq,
        Prod.mk.injEq] at heval
      rw [← heval.1]
  · intro dbg sel inputs outputs ri s hstale hfind hidx hdbg
    rw [Selector.evaluate, if_neg hdbg, hfind]
    simp only [hidx, hstale, eq_self_iff_true, if_true]
  · intro dbg sel sel' inputs outputs outs' ri s hfind hidx heval
    rw [Selector.evaluate] at heval
    by_cases hdbg : (dbg = true ∧ inputs.length ≠ outputs.length + 1)
    · rw [if_pos hdbg] at heval
      cases heval
    · rw [if_neg hdbg, hfind] at heval
      simp only [hidx, eq_self_iff_true, if_true] at heval
      rcases hst : sel.stale_cycle_input with _ | _
      · rw [hst] at heval
        simp only [Bool.false_eq_true, if_false] at heval
        rcases hdrop : outputs.dropWhile Signal.is_falsy with _ | ⟨active, post⟩
        · rw [hdrop] at heval
          cases outputs with
          | nil => cases heval
          | cons o rest =>
            simp only [Option.some.injEq, Prod.mk.injEq] at heval
            rw [← heval.1]
        · rw [hdrop] at heval
          cases post with
          | nil =>
            rcases hpre : outputs.takeWhile Signal.is_falsy with _ | ⟨p0, ps⟩ <;>
              · rw [hpre] at heval
                simp only [Option.some.injEq, Prod.mk.injEq] at heval
                rw [← heval.1]
          | cons nxt rest2 =>
            simp only [Option.some.injEq, Prod.mk.injEq] at heval
            rw [← heval.1]
      · rw [hst] at heval
        simp only [if_true, Option.some.injEq, Prod.mk.injEq] at heval
        rw [← heval.1]
        exact hst
  · intro dbg sel sel' inputs outputs outs' hfind heval
    rw [Selector.evaluate] at heval
    by_cases hdbg : (dbg = true ∧ inputs.length ≠ outputs.length + 1)
    · rw [if_pos hdbg] at heval
      cases heval
    · rw [if_neg hdbg, hfind] at heval
      by_cases hall : outputs.all Signal.is_falsy
      · rw [if_pos hall] at heval
        cases outputs with
        | nil =>
          simp only [Option.some.injEq, Prod.mk.injEq] at heval
          rw [← heval.1]
        | cons o rest =>
          simp only [Option.some.injEq, Prod.mk.injEq] at heval
          rw [← heval.1]
      · rw [if_neg hall] at heval
        simp only [Option.some.injEq, Prod.mk.injEq] at heval
        rw [← heval.1]

/-- C3 (amended) witness: all six debounce facts at concrete gates — a
blocked re-trigger, flag setting, flag clearing, and the Selector cycle
analogues. -/
theorem stateful_gate_debounce_spec_witness :
    Counter.evaluate ⟨0, 10, false, (true, false)⟩ [Signal.ON, Signal.OFF]
        [Signal.OFF] =
      some (⟨0, 10, false, (true, false)⟩, [Signal.OFF]) ∧
    Counter.stale_get ⟨0, 10, false, (true, false)⟩ 0 = some true ∧
    Counter.stale_inputs ⟨1, 10, false, (false, false)⟩ = (false, false) ∧
    Selector.evaluate false ⟨true⟩ [Signal.ON, Signal.OFF] [Signal.OFF] =
      some (⟨true⟩, [Signal.OFF]) ∧
    Selector.stale_cycle_input ⟨true⟩ = true ∧
    Selector.stale_cycle_input ⟨false⟩ = false := by
  refine ⟨?_, ?_, ?_, ?_, ?_, ?_⟩
  · exact stateful_gate_debounce_spec.1 ⟨0, 10, false, (true, false)⟩
      [Signal.ON, Signal.OFF] [Signal.OFF] 0 Signal.ON (by decide) rfl
  · exact stateful_gate_debounce_spec.2.1 (Counter.new 0 10 false)
      ⟨0, 10, false, (true, false)⟩ [Signal.ON, Signal.ON] [Signal.OFF]
      [Signal.OFF] 0 Signal.ON (by decide) (by decide)
  · exact stateful_gate_debounce_spec.2.2.1 ⟨1, 10, false, (true, true)⟩
      ⟨1, 10, false, (false, false)⟩ [Signal.OFF, Signal.OFF] [Signal.OFF]
      [Signal.OFF] (by decide) (by decide)
  · exact stateful_gate_debounce_spec.2.2.2.1 false ⟨true⟩
      [Signal.ON, Signal.OFF] [Signal.OFF] 1 Signal.ON rfl (by decide)
      (by decide) (by simp)
  · exact stateful_gate_debounce_spec.2.2.2.2.1 false ⟨false⟩ ⟨true⟩
      [Signal.ON, Signal.OFF] [Signal.OFF, Signal.OFF]
      [Signal.ON, Signal.OFF] 1 Signal.ON (by decide) (by decide) (by decide)
  · exact stateful_gate_debounce_spec.2.2.2.2.2 false ⟨true⟩ ⟨false⟩
      [Signal.OFF] [Signal.ON] [Signal.ON] (by decide) (by decide)

/-- C1: on every well-formed acyclic graph, `LogicGraph::compile` produces
an evaluation order that contains each gate exactly once (it is
duplicate-free and its members are exactly the gate nodes) and that places
the source gate of every wire edge strictly before its target gate. -/
theorem compile_topological_order (g : DiGraph) (hwf : g.WF)
    (hacyc : g.Acyclic) :
    (LogicGraph.compile g).Nodup ∧
    (∀ v, v ∈ LogicGraph.compile g ↔ v ∈ g.nodes) ∧
    (∀ a b, (a, b) ∈ g.edges →
      (LogicGraph.compile g).indexOf a < (LogicGraph.compile g).indexOf b) := by
  have hc := compile_eq_finish_order hwf hacyc
  refine ⟨hc ▸ finish_order_nodup g, fun v => hc ▸ mem_finish_order g v, ?_⟩
  intro a b hab
  rw [hc]
  have hbn : b ∈ g.nodes := (hwf.2 _ hab).2
  have han : a ∈ g.nodes := (hwf.2 _ hab).1
  obtain ⟨p, q, hsplit⟩ := List.append_of_mem ((mem_finish_order g b).mpr hbn)
  have hap : a ∈ p :=
    finish_order_postOrdered hacyc p b q hsplit a (DiGraph.mem_pred.mpr hab) han
  rw [hsplit]
  exact indexOf_lt_of_split p q b a (hsplit ▸ finish_order_nodup g) hap

/-- C1 witness: the diamond `A→B`, `A→C`, `B→D`, `C→D` is well-formed and
acyclic, and the compiled order places `A` (gate 0) before `B` and `C`
(gates 1, 2) and both before `D` (gate 3). -/
theorem compile_topological_order_witness :
    diamondGraph.WF ∧ diamondGraph.Acyclic ∧
    (LogicGraph.compile diamondGraph).Nodup ∧
    (∀ v, v ∈ LogicGraph.compile diamondGraph ↔ v ∈ diamondGraph.nodes) ∧
    (LogicGraph.compile diamondGraph).indexOf 0 <
      (LogicGraph.compile diamondGraph).indexOf 1 ∧
    (LogicGraph.compile diamondGraph).indexOf 0 <
      (LogicGraph.compile diamondGraph).indexOf 2 ∧
    (LogicGraph.compile diamondGraph).indexOf 1 <
      (LogicGraph.compile diamondGraph).indexOf 3 ∧
    (LogicGraph.compile diamondGraph).indexOf 2 <
      (LogicGraph.compile diamondGraph).indexOf 3 := by
  have hwf : diamondGraph.WF := by
    constructor
    · decide
    · decide
  have hacyc : diamondGraph.Acyclic :=
    diamondGraph.acyclic_of_rank id (by decide)
  obtain ⟨h1, h2, h3⟩ := compile_topological_order diamondGraph hwf hacyc
  exact ⟨hwf, hacyc, h1, h2, h3 0 1 (by decide), h3 0 2 (by decide),
    h3 1 3 (by decide), h3 2 3 (by decide)⟩
